import Mathlib

/-!
Shallow embedding of `lpmtrie.go` (package `lpmtrie`): a longest-prefix-match
trie over fixed-width byte-string keys.  Bytes are modelled as `Nat` values
(`< 256` where it matters), Go slices as `List Nat`, the `interface{}` payload
as an `Option V` (Go `nil` = `none`), and the pointer-based node graph as an
inductive tree (`nil` pointers = `Tree.nil`).  The `int64` size counter is an
`Int`.  Out-of-range panics of Go slice indexing are modelled by total `getD`
access; all uses in the claims stay in bounds.  Single-threaded semantics:
each atomic load/store pair becomes ordinary functional update.
-/

namespace LpmTrieGo

/-- Key of the trie: a prefix length (Go `int`, non-negative for valid keys)
and a byte buffer. Mirrors `type Key struct` in the source. -/
structure Key where
  PrefixLen : Nat
  Data : List Nat
deriving DecidableEq, Repr

/-- A (sub)tree of `lpmTrieNode` pointers: `nil` is the null pointer, a node
carries its `Key`, its stored value (`none` = Go `nil` interface), the
`im` intermediate flag, and the two child slots `child[0]`, `child[1]`. -/
inductive Tree (V : Type) where
  | nil : Tree V
  | node (key : Key) (value : Option V) (im : Bool) (child0 child1 : Tree V) : Tree V
deriving DecidableEq, Repr

/-- Null-pointer test on a child slot (Go `loadPointer(...) != nil`). -/
def Tree.isNil {V : Type} : Tree V → Bool
  | .nil => true
  | .node _ _ _ _ _ => false

/-- Go `extractBit(data, index)`: `(data[index/8] >> (7 - index%8)) & 0x01`. -/
def extractBit (data : List Nat) (index : Nat) : Nat :=
  (data.getD (index / 8) 0 >>> (7 - index % 8)) &&& 1

/-- Leading-zero count of `x` viewed as a `w`-bit word; mirrors Go
`bits.LeadingZeros32/16/8` for arguments `< 2^w`. -/
def leadingZeros : Nat → Nat → Nat
  | 0, _ => 0
  | w + 1, x => if x.testBit w then 0 else leadingZeros w x + 1

/-- Big-endian value of the `B` bytes `data[i], …, data[i+B-1]`; mirrors Go
`binary.BigEndian.Uint32/Uint16` (and a single byte for `B = 1`). -/
def beBytes (data : List Nat) (i : Nat) : Nat → Nat
  | 0 => 0
  | B + 1 => beBytes data i B * 256 + data.getD (i + B) 0

/-- The 32-bit chunk loop of `longestPrefixMatch`
(`for ; t.keySize >= i+4; i += 4`).  `rem` is `keySize - i`; the loop guard
`keySize >= i+4` is `rem ≥ 4`.  `.inl` is an early `return`, `.inr` falls
through to the 16-bit/8-bit tail with the current `i` and `prefixlen`. -/
def lpmLoop32 (nd kd : List Nat) (limit : Nat) : Nat → Nat → Nat → Sum Nat (Nat × Nat)
  | rem + 4, i, prefixlen =>
    let diff := beBytes nd i 4 ^^^ beBytes kd i 4
    let p := prefixlen + leadingZeros 32 diff
    if limit ≤ p then .inl limit
    else if diff ≠ 0 then .inl p
    else lpmLoop32 nd kd limit rem (i + 4) p
  | _, i, prefixlen => .inr (i, prefixlen)

/-- The final 8-bit chunk of `longestPrefixMatch` (`if t.keySize >= i+1`). -/
def lpmLoop8 (ks : Nat) (nd kd : List Nat) (limit i prefixlen : Nat) : Nat :=
  if i + 1 ≤ ks then
    let diff := nd.getD i 0 ^^^ kd.getD i 0
    let p := prefixlen + leadingZeros 8 diff
    if limit ≤ p then limit else p
  else prefixlen

/-- The 16-bit chunk of `longestPrefixMatch` (`if t.keySize >= i+2`),
followed by the 8-bit chunk. -/
def lpmTail (ks : Nat) (nd kd : List Nat) (limit i prefixlen : Nat) : Nat :=
  if i + 2 ≤ ks then
    let diff := beBytes nd i 2 ^^^ beBytes kd i 2
    let p := prefixlen + leadingZeros 16 diff
    if limit ≤ p then limit
    else if diff ≠ 0 then p
    else lpmLoop8 ks nd kd limit (i + 2) p
  else lpmLoop8 ks nd kd limit i prefixlen

/-- Go `(t *lpmTrie) longestPrefixMatch(node, key)` with `ks = t.keySize`:
number of leading bits shared by the node's key and `key`, capped at
`limit = min(node.PrefixLen, key.PrefixLen)`, computed in big-endian
32/16/8-bit XOR chunks. -/
def longestPrefixMatch (ks : Nat) (nodeKey key : Key) : Nat :=
  let limit := min nodeKey.PrefixLen key.PrefixLen
  match lpmLoop32 nodeKey.Data key.Data limit ks 0 0 with
  | .inl r => r
  | .inr (i, prefixlen) => lpmTail ks nodeKey.Data key.Data limit i prefixlen

/-- The trie: root slot, live-entry counter (`int64`), configured maximum
prefix length and key byte width.  Mirrors `type lpmTrie struct`. -/
structure lpmTrie (V : Type) where
  root : Tree V
  size : Int
  maxPrefixLen : Nat
  keySize : Nat
deriving DecidableEq, Repr

/-- Go `New(maxPrefixLen int) (LpmTrie, error)`: rejects non-positive or
non-multiple-of-8 widths with an error value, otherwise returns the empty
trie with `keySize = maxPrefixLen/8`. -/
def New (V : Type) (maxPrefixLen : Int) : Except String (lpmTrie V) :=
  if maxPrefixLen ≤ 0 || maxPrefixLen % 8 != 0 then
    .error "maxPrefixLen must be positive and be times of 8"
  else
    .ok { root := .nil, size := 0,
          maxPrefixLen := maxPrefixLen.toNat, keySize := (maxPrefixLen / 8).toNat }

/-- Go `Size()`: atomic read of the counter. -/
def Size {V : Type} (t : lpmTrie V) : Int := t.size

/-- Go `isValidKey`: `0 <= key.PrefixLen <= t.maxPrefixLen` (the lower bound
is implicit in `Nat`) and `len(key.Data) == t.keySize`.  `checkKey` panics on
violation; theorems carry this as a precondition instead. -/
def isValidKey {V : Type} (t : lpmTrie V) (key : Key) : Bool :=
  key.PrefixLen ≤ t.maxPrefixLen && key.Data.length == t.keySize

/-- Common epilogue of `Lookup`: return the remembered best match, if any. -/
def lookupFinish {V : Type} : Option (Option V) → Option V × Bool
  | none => (none, false)
  | some v => (v, true)

/-- The descent loop of Go `Lookup`.  `found` remembers the value of the most
recent non-intermediate node whose prefix fully matched. -/
def lookupLoop {V : Type} (mpl ks : Nat) (key : Key) : Tree V → Option (Option V) → Option V × Bool
  | .nil, found => lookupFinish found
  | .node nk nv nim c0 c1, found =>
    let matchlen := longestPrefixMatch ks nk key
    if matchlen = mpl then (nv, true)
    else if matchlen < nk.PrefixLen then lookupFinish found
    else
      if extractBit key.Data nk.PrefixLen = 1 then
        lookupLoop mpl ks key c1 (if nim then found else some nv)
      else
        lookupLoop mpl ks key c0 (if nim then found else some nv)

/-- Go `Lookup(key) (interface{}, bool)` (precondition `isValidKey`). -/
def Lookup {V : Type} (t : lpmTrie V) (key : Key) : Option V × Bool :=
  lookupLoop t.maxPrefixLen t.keySize key t.root none

/-- The descent-and-publish part of Go `Update`, returning the new subtree for
the slot the descent started from, the `updated` flag, and the net change the
call makes to the size counter (the optimistic `+1` combined with the undo
`-1` of the non-intermediate replacement case). -/
def updateLoop {V : Type} (mpl ks : Nat) (key : Key) (val : V) : Tree V → Tree V × Bool × Int
  | .nil => (.node key (some val) false .nil .nil, false, 1)
  | .node nk nv nim c0 c1 =>
    let matchlen := longestPrefixMatch ks nk key
    if nk.PrefixLen ≠ matchlen ∨ nk.PrefixLen = key.PrefixLen ∨ nk.PrefixLen = mpl then
      -- loop broke on this node
      if nk.PrefixLen = matchlen then
        -- same prefix: the new node inherits the children and replaces it;
        -- undo the optimistic increment unless it was intermediate
        (.node key (some val) false c0 c1, true, if nim then 1 else 0)
      else
        -- diverging prefixes: fork with a fresh intermediate node
        let imKey : Key := { PrefixLen := matchlen, Data := key.Data }
        let newnode : Tree V := .node key (some val) false .nil .nil
        let cur : Tree V := .node nk nv nim c0 c1
        if extractBit key.Data matchlen ≠ 0 then
          (.node imKey none true cur newnode, false, 1)
        else
          (.node imKey none true newnode cur, false, 1)
    else
      -- descend into child[extractBit(key.Data, nk.PrefixLen)]
      if extractBit key.Data nk.PrefixLen = 1 then
        let res := updateLoop mpl ks key val c1
        (.node nk nv nim c0 res.1, res.2)
      else
        let res := updateLoop mpl ks key val c0
        (.node nk nv nim res.1 c1, res.2)

/-- Go `Update(key, val) bool` (precondition `isValidKey`). -/
def Update {V : Type} (t : lpmTrie V) (key : Key) (val : V) : lpmTrie V × Bool :=
  let res := updateLoop t.maxPrefixLen t.keySize key val t.root
  ({ t with root := res.1, size := t.size + res.2.2 }, res.2.1)

/-- Outcome of the recursive reading of Go `Delete`: rejection (no mutation),
a replacement subtree for the slot of the node the recursion is at (`trim`),
or `collapse`: the matched childless node asks its intermediate parent to be
replaced by the sibling (the store through `trim2` one level up). -/
inductive DelStep (V : Type) where
  | reject : DelStep V
  | replaced (t : Tree V) : DelStep V
  | collapse : DelStep V
deriving DecidableEq, Repr

/-- The descent of Go `Delete`, carrying the intermediate flag of the parent
node (`none` while at the root, which has no parent).  The loop's break
conditions, the post-loop rejection test, and the three mutation cases are
translated case for case. -/
def deleteLoop {V : Type} (ks : Nat) (key : Key) (parentIm : Option Bool) : Tree V → DelStep V
  | .nil => .reject
  | .node nk nv nim c0 c1 =>
    let matchlen := longestPrefixMatch ks nk key
    if nk.PrefixLen ≠ matchlen ∨ nk.PrefixLen = key.PrefixLen then
      -- loop broke on this node: rejection test
      if nk.PrefixLen = key.PrefixLen ∧ nk.PrefixLen = matchlen ∧ nim = false then
        if c0.isNil = false ∧ c1.isNil = false then
          -- both children occupied: convert in place to intermediate
          .replaced (.node nk none true c0 c1)
        else if parentIm = some true ∧ c0.isNil = true ∧ c1.isNil = true then
          -- childless under an intermediate parent: collapse one level up
          .collapse
        else if c0.isNil = false then .replaced c0
        else if c1.isNil = false then .replaced c1
        else .replaced .nil
      else .reject
    else
      -- descend; this node becomes `parent`, its slot becomes `trim2`
      if extractBit key.Data nk.PrefixLen = 1 then
        match deleteLoop ks key (some nim) c1 with
        | .reject => .reject
        | .replaced c1' => .replaced (.node nk nv nim c0 c1')
        | .collapse => .replaced c0
      else
        match deleteLoop ks key (some nim) c0 with
        | .reject => .reject
        | .replaced c0' => .replaced (.node nk nv nim c0' c1)
        | .collapse => .replaced c1

/-- Go `Delete(key) bool` (precondition `isValidKey`).  `collapse` cannot
reach the root (it needs an intermediate parent); that case is mapped to the
unchanged trie. -/
def Delete {V : Type} (t : lpmTrie V) (key : Key) : lpmTrie V × Bool :=
  match deleteLoop t.keySize key none t.root with
  | .reject => (t, false)
  | .replaced rt => ({ t with root := rt, size := t.size - 1 }, true)
  | .collapse => (t, true)

/-- Go `traverse`: in-order walk; returns the `terminated` flag together with
the sequence of `fn` invocations (argument pairs), for a pure visitor. -/
def traverse {V : Type} (fn : Key → Option V → Bool) : Tree V → Bool × List (Key × Option V)
  | .nil => (false, [])
  | .node nk nv nim c0 c1 =>
    let resL := traverse fn c0
    if resL.1 then (true, resL.2)
    else if nim = false ∧ fn nk nv = false then (true, resL.2 ++ [(nk, nv)])
    else
      let resR := traverse fn c1
      (resR.1, resL.2 ++ (if nim then [] else [(nk, nv)]) ++ resR.2)

/-- Go `Range(fn)`: runs `traverse` from the root; the result is the sequence
of visitor invocations. -/
def Range {V : Type} (t : lpmTrie V) (fn : Key → Option V → Bool) : List (Key × Option V) :=
  (traverse fn t.root).2

/-- Number of non-intermediate nodes reachable from a slot. -/
def countNonIm {V : Type} : Tree V → Nat
  | .nil => 0
  | .node _ _ nim c0 c1 => (if nim then 0 else 1) + countNonIm c0 + countNonIm c1

/-- The child holds a strictly larger prefix length than `p` (vacuous for an
empty slot). -/
def plLt {V : Type} (p : Nat) : Tree V → Bool
  | .nil => true
  | .node ck _ _ _ _ => p < ck.PrefixLen

/-- Along every edge of the tree the prefix length strictly increases. -/
def plIncOk {V : Type} : Tree V → Bool
  | .nil => true
  | .node nk _ _ c0 c1 => plLt nk.PrefixLen c0 && plLt nk.PrefixLen c1 && plIncOk c0 && plIncOk c1

/-- Every intermediate node has both child slots occupied. -/
def imOk {V : Type} : Tree V → Bool
  | .nil => true
  | .node _ _ nim c0 c1 => (!nim || (!c0.isNil && !c1.isNil)) && imOk c0 && imOk c1

/-- Bit-by-bit reference for `longestPrefixMatch`: scanning bit positions
`j, j+1, …` (with `n` positions left), the first position where the two
buffers differ — or the end of the scan if none does. -/
def firstDiff (nd kd : List Nat) : Nat → Nat → Nat
  | 0, j => j
  | n + 1, j => if extractBit nd j = extractBit kd j then firstDiff nd kd n (j + 1) else j

/-- The node at which the descent loop of `Update` stops (`none` when it runs
off an empty slot); follows exactly the loop's break conditions. -/
def updateStop {V : Type} (mpl ks : Nat) (key : Key) : Tree V → Option (Tree V)
  | .nil => none
  | .node nk nv nim c0 c1 =>
    let matchlen := longestPrefixMatch ks nk key
    if nk.PrefixLen ≠ matchlen ∨ nk.PrefixLen = key.PrefixLen ∨ nk.PrefixLen = mpl then
      some (.node nk nv nim c0 c1)
    else
      if extractBit key.Data nk.PrefixLen = 1 then updateStop mpl ks key c1
      else updateStop mpl ks key c0

/-- The node at which the descent loop of `Delete` stops (`none` when it runs
off an empty slot); follows exactly the loop's break conditions. -/
def deleteStop {V : Type} (ks : Nat) (key : Key) : Tree V → Option (Tree V)
  | .nil => none
  | .node nk nv nim c0 c1 =>
    let matchlen := longestPrefixMatch ks nk key
    if nk.PrefixLen ≠ matchlen ∨ nk.PrefixLen = key.PrefixLen then
      some (.node nk nv nim c0 c1)
    else
      if extractBit key.Data nk.PrefixLen = 1 then deleteStop ks key c1
      else deleteStop ks key c0

/-- The acceptance condition of `Delete`: the descent stopped on an existing
node whose prefix length equals both the query's prefix length and the
computed match length and which is not intermediate. -/
def deleteAccept {V : Type} (ks : Nat) (key : Key) (t : Tree V) : Bool :=
  match deleteStop ks key t with
  | some (.node nk _ nim _ _) =>
      nk.PrefixLen == key.PrefixLen && nk.PrefixLen == longestPrefixMatch ks nk key && nim == false
  | _ => false

/-- Trie states reachable from a successful `New` by single-threaded `Update`
and `Delete` calls with valid keys. -/
inductive Reachable {V : Type} : lpmTrie V → Prop where
  | new (mpl : Int) (t : lpmTrie V) : New V mpl = .ok t → Reachable t
  | update (t : lpmTrie V) (key : Key) (val : V) : Reachable t →
      isValidKey t key = true → Reachable (Update t key val).1
  | delete (t : lpmTrie V) (key : Key) : Reachable t →
      isValidKey t key = true → Reachable (Delete t key).1

/-- The empty trie produced by `New(32)` (IPv4 width: 4-byte keys). -/
def emptyTrie32 : lpmTrie Nat := { root := .nil, size := 0, maxPrefixLen := 32, keySize := 4 }

/-- `New(32)` followed by `Update({32, [0xA0,0,0,0]}, 1)`: a single stored
/32 entry. -/
def trieA : lpmTrie Nat := (Update emptyTrie32 ⟨32, [0xA0, 0, 0, 0]⟩ 1).1

/-- `trieA` followed by `Update({8, [0xA0,0,0,0]}, 2)`: inserting a key that
is a proper bit-prefix of the stored /32 entry. -/
def trieAB : lpmTrie Nat := (Update trieA ⟨8, [0xA0, 0, 0, 0]⟩ 2).1

/-- `trieA` followed by `Update({8, [0xA0,0x80,0,0]}, 2)`: the inserted /8
key agrees with the stored /32 entry on all 8 significant bits and differs
only in a don't-care bit (bit 8). -/
def trieAC : lpmTrie Nat := (Update trieA ⟨8, [0xA0, 0x80, 0, 0]⟩ 2).1

/-- `New(32)` followed by two diverging /32 inserts: the root becomes a
genuine intermediate branch node of prefix length 0. -/
def trieD : lpmTrie Nat :=
  (Update (Update emptyTrie32 ⟨32, [0xA0, 0, 0, 0]⟩ 1).1 ⟨32, [0x20, 0, 0, 0]⟩ 2).1

end LpmTrieGo

namespace LpmTrieGo

/-- Claim C1 (code bug evidence).  In the reachable trie built by inserting
`{32, [0xA0,0,0,0]} ↦ 1` and then `{8, [0xA0,0,0,0]} ↦ 2`, the query
`{32, [0xA0,0,0,0]}` is matched by both inserted keys and the /32 entry
(value 1) has the greater prefix length — the claim requires `Lookup` to
return 1 — yet `Lookup` returns 2.  (The Go `Update` lacks the ancestor
insertion case `matchlen == key.prefixlen` of the kernel `lpm_trie` it is
derived from, so the /8 node is placed below an intermediate node of equal
prefix length and shadows the /32 entry.) -/
theorem C1_lookup_not_lpm :
    Reachable trieAB ∧
    Lookup trieA ⟨32, [0xA0, 0, 0, 0]⟩ = (some 1, true) ∧
    Lookup trieAB ⟨32, [0xA0, 0, 0, 0]⟩ = (some 2, true) := by
  refine ⟨?_, by decide, by decide⟩
  have h0 : New Nat 32 = .ok emptyTrie32 := rfl
  exact .update _ _ _ (.update _ _ _ (.new 32 _ h0) (by decide)) (by decide)

/-- Claim C2 (code bug evidence).  The reachable trie `trieAB` violates the
claimed invariant: its root is an intermediate node of `PrefixLen` 8 whose
`child[0]` also has `PrefixLen` 8 — not strictly greater. -/
theorem C2_prefixlen_not_strictly_increasing :
    Reachable trieAB ∧
    trieAB.root = .node ⟨8, [0xA0, 0, 0, 0]⟩ none true
      (.node ⟨8, [0xA0, 0, 0, 0]⟩ (some 2) false .nil .nil)
      (.node ⟨32, [0xA0, 0, 0, 0]⟩ (some 1) false .nil .nil) ∧
    plIncOk trieAB.root = false := by
  refine ⟨?_, by decide, by decide⟩
  have h0 : New Nat 32 = .ok emptyTrie32 := rfl
  exact .update _ _ _ (.update _ _ _ (.new 32 _ h0) (by decide)) (by decide)

/-- Claim C3 (code bug evidence).  In the reachable trie `trieA` (one /32
entry, size 1) the valid key `{8, [0xA0,0,0,0]}` is not present (the only
stored node has prefix length 32, and `Lookup` reports not-found), yet
`Update` of that key followed by its immediate `Delete` leaves size 2 (the
`Delete` is rejected because the descent stops on the equal-prefix-length
intermediate node) and changes `Lookup` of the /32 query from 1 to 2. -/
theorem C3_insert_delete_not_inverse :
    Reachable trieA ∧
    isValidKey trieA ⟨8, [0xA0, 0, 0, 0]⟩ = true ∧
    trieA.root = .node ⟨32, [0xA0, 0, 0, 0]⟩ (some 1) false .nil .nil ∧
    Lookup trieA ⟨8, [0xA0, 0, 0, 0]⟩ = (none, false) ∧
    Size trieA = 1 ∧
    (Delete (Update trieA ⟨8, [0xA0, 0, 0, 0]⟩ 2).1 ⟨8, [0xA0, 0, 0, 0]⟩).2 = false ∧
    Size (Delete (Update trieA ⟨8, [0xA0, 0, 0, 0]⟩ 2).1 ⟨8, [0xA0, 0, 0, 0]⟩).1 = 2 ∧
    Lookup (Delete (Update trieA ⟨8, [0xA0, 0, 0, 0]⟩ 2).1 ⟨8, [0xA0, 0, 0, 0]⟩).1
      ⟨32, [0xA0, 0, 0, 0]⟩ = (some 2, true) := by
  refine ⟨?_, by decide, by decide, by decide, by decide, by decide, by decide, by decide⟩
  have h0 : New Nat 32 = .ok emptyTrie32 := rfl
  exact .update _ _ _ (.new 32 _ h0) (by decide)

/-- Claim C8 (code bug evidence).  In the reachable trie `trieAC`, `Range`
yields the key `{32, [0xA0,0,0,0]}` before the key `{8, [0xA0,0x80,0,0]}`,
although the two keys agree on the first 8 bits (`firstDiff … = 8`), so the
8-bit key's bitstring is a proper prefix of the 32-bit key's bitstring and
precedes it in ascending bitstring order: the yield order is not ascending.
(The in-order walk itself is faithful; the order is broken because `Update`
placed the /8 node according to a don't-care bit of its key.) -/
theorem C8_range_not_ascending :
    Reachable trieAC ∧
    Range trieAC (fun _ _ => true) =
      [(⟨32, [0xA0, 0, 0, 0]⟩, some 1), (⟨8, [0xA0, 0x80, 0, 0]⟩, some 2)] ∧
    firstDiff [0xA0, 0, 0, 0] [0xA0, 0x80, 0, 0] 8 0 = 8 := by
  refine ⟨?_, by decide, by decide⟩
  have h0 : New Nat 32 = .ok emptyTrie32 := rfl
  exact .update _ _ _ (.update _ _ _ (.new 32 _ h0) (by decide)) (by decide)

/-- Unfolding of `deleteStop` at a node. -/
theorem deleteStop_node {V : Type} (ks : Nat) (key nk : Key) (nv : Option V)
    (nim : Bool) (c0 c1 : Tree V) :
    deleteStop ks key (.node nk nv nim c0 c1) =
      (if nk.PrefixLen ≠ longestPrefixMatch ks nk key ∨ nk.PrefixLen = key.PrefixLen then
        some (.node nk nv nim c0 c1)
      else if extractBit key.Data nk.PrefixLen = 1 then deleteStop ks key c1
      else deleteStop ks key c0) := rfl

/-- Unfolding of `deleteAccept` at a node. -/
theorem deleteAccept_node {V : Type} (ks : Nat) (key nk : Key) (nv : Option V)
    (nim : Bool) (c0 c1 : Tree V) :
    deleteAccept ks key (.node nk nv nim c0 c1) =
      (if nk.PrefixLen ≠ longestPrefixMatch ks nk key ∨ nk.PrefixLen = key.PrefixLen then
        nk.PrefixLen == key.PrefixLen && nk.PrefixLen == longestPrefixMatch ks nk key
          && nim == false
      else if extractBit key.Data nk.PrefixLen = 1 then deleteAccept ks key c1
      else deleteAccept ks key c0) := by
  by_cases hbreak : nk.PrefixLen ≠ longestPrefixMatch ks nk key ∨ nk.PrefixLen = key.PrefixLen
  · rw [if_pos hbreak]
    unfold deleteAccept
    rw [deleteStop_node, if_pos hbreak]
  · rw [if_neg hbreak]
    unfold deleteAccept
    rw [deleteStop_node, if_neg hbreak]
    by_cases hbit : extractBit key.Data nk.PrefixLen = 1
    · rw [if_pos hbit, if_pos hbit]
    · rw [if_neg hbit, if_neg hbit]

/-- The recursive reading of `Delete` rejects exactly when the acceptance
condition at the stop node fails, whatever the parent's flag is. -/
theorem deleteLoop_reject_iff {V : Type} (ks : Nat) (key : Key) :
    ∀ (t : Tree V) (pIm : Option Bool),
      (deleteLoop ks key pIm t = .reject ↔ deleteAccept ks key t = false) := by
  intro t
  induction t with
  | nil => intro pIm; simp [deleteLoop, deleteAccept, deleteStop]
  | node nk nv nim c0 c1 ih0 ih1 =>
    intro pIm
    rw [deleteAccept_node]
    simp only [deleteLoop]
    by_cases hbreak : nk.PrefixLen ≠ longestPrefixMatch ks nk key ∨ nk.PrefixLen = key.PrefixLen
    · rw [if_pos hbreak, if_pos hbreak]
      by_cases hacc : nk.PrefixLen = key.PrefixLen ∧
          nk.PrefixLen = longestPrefixMatch ks nk key ∧ nim = false
      · rw [if_pos hacc]
        have hb : (nk.PrefixLen == key.PrefixLen &&
            (nk.PrefixLen == longestPrefixMatch ks nk key) && (nim == false)) = true := by
          simp only [Bool.and_eq_true, beq_iff_eq]
          exact ⟨⟨hacc.1, hacc.2.1⟩, hacc.2.2⟩
        rw [hb]
        simp only [Bool.true_eq_false, iff_false]
        split
        · simp
        · split
          · simp
          · split
            · simp
            · split <;> simp
      · rw [if_neg hacc]
        have hb : (nk.PrefixLen == key.PrefixLen &&
            (nk.PrefixLen == longestPrefixMatch ks nk key) && (nim == false)) = false := by
          rw [Bool.eq_false_iff]
          intro hc
          simp only [Bool.and_eq_true, beq_iff_eq] at hc
          exact hacc ⟨hc.1.1, hc.1.2, hc.2⟩
        rw [hb]
        simp
    · rw [if_neg hbreak, if_neg hbreak]
      by_cases hbit : extractBit key.Data nk.PrefixLen = 1
      · rw [if_pos hbit, if_pos hbit, ← ih1 (some nim)]
        cases deleteLoop ks key (some nim) c1 <;> simp
      · rw [if_neg hbit, if_neg hbit, ← ih0 (some nim)]
        cases deleteLoop ks key (some nim) c0 <;> simp

/-- Claim C6: `Delete` returns `true` exactly when the descent stops on an
existing node whose `prefixLen` equals both the query's `prefixLen` and the
computed match length and whose intermediate flag is false; otherwise it
returns `false` and leaves the whole trie state (root tree, configuration
and size counter) unchanged. -/
theorem C6_delete_guard (V : Type) (t : lpmTrie V) (key : Key)
    (hv : isValidKey t key = true) :
    ((Delete t key).2 = true ↔ deleteAccept t.keySize key t.root = true) ∧
    (deleteAccept t.keySize key t.root = false → Delete t key = (t, false)) := by
  have h := deleteLoop_reject_iff t.keySize key t.root none
  unfold Delete
  rcases hd : deleteLoop t.keySize key none t.root with _ | rt | _ <;> rw [hd] at h
  · simp only [h.mp rfl]
    exact ⟨by simp, fun _ => trivial⟩
  · have ha : deleteAccept t.keySize key t.root = true := by
      cases hA : deleteAccept t.keySize key t.root with
      | false => exact absurd (h.mpr hA) (by simp)
      | true => rfl
    rw [ha]
    exact ⟨by simp, fun hc => absurd hc (by simp)⟩
  · have ha : deleteAccept t.keySize key t.root = true := by
      cases hA : deleteAccept t.keySize key t.root with
      | false => exact absurd (h.mpr hA) (by simp)
      | true => rfl
    rw [ha]
    exact ⟨by simp, fun hc => absurd hc (by simp)⟩

/-- Witness for C6: on `trieA`, deleting the stored /32 key is accepted,
and deleting the absent /8 key is rejected without mutation. -/
theorem C6_delete_guard_witness :
    isValidKey trieA ⟨32, [0xA0, 0, 0, 0]⟩ = true ∧
    (Delete trieA ⟨32, [0xA0, 0, 0, 0]⟩).2 = true ∧
    Delete trieA ⟨8, [0xA0, 0, 0, 0]⟩ = (trieA, false) :=
  ⟨by decide,
   ((C6_delete_guard Nat trieA ⟨32, [0xA0, 0, 0, 0]⟩ (by decide)).1).mpr (by decide),
   (C6_delete_guard Nat trieA ⟨8, [0xA0, 0, 0, 0]⟩ (by decide)).2 (by decide)⟩

/-- Unfolding of `updateStop` at a node. -/
theorem updateStop_node {V : Type} (mpl ks : Nat) (key nk : Key) (nv : Option V)
    (nim : Bool) (c0 c1 : Tree V) :
    updateStop mpl ks key (.node nk nv nim c0 c1) =
      (if nk.PrefixLen ≠ longestPrefixMatch ks nk key ∨ nk.PrefixLen = key.PrefixLen ∨
          nk.PrefixLen = mpl then
        some (.node nk nv nim c0 c1)
      else if extractBit key.Data nk.PrefixLen = 1 then updateStop mpl ks key c1
      else updateStop mpl ks key c0) := rfl

/-- When the descent of `Update` stops on an existing node whose prefix
length equals the computed match length, the update is a replacement: flag
`true`, size delta `1` exactly for an intermediate node, and re-descending
the result finds the new node holding the new key/value with the replaced
node's two children. -/
theorem updateLoop_replace {V : Type} (mpl ks : Nat) (key : Key) (val : V) :
    ∀ (tr : Tree V) (nk : Key) (nv : Option V) (nim : Bool) (l r : Tree V),
      updateStop mpl ks key tr = some (.node nk nv nim l r) →
      nk.PrefixLen = longestPrefixMatch ks nk key →
      (updateLoop mpl ks key val tr).2 = (true, if nim then 1 else 0) ∧
      updateStop mpl ks key (updateLoop mpl ks key val tr).1 =
        some (.node key (some val) false l r) := by
  intro tr
  induction tr with
  | nil => intro nk nv nim l r hstop hm; exact absurd hstop (by simp [updateStop])
  | node nk' nv' nim' c0 c1 ih0 ih1 =>
    intro nk nv nim l r hstop hm
    rw [updateStop_node] at hstop
    simp only [updateLoop]
    by_cases hbreak : nk'.PrefixLen ≠ longestPrefixMatch ks nk' key ∨
        nk'.PrefixLen = key.PrefixLen ∨ nk'.PrefixLen = mpl
    · rw [if_pos hbreak] at hstop
      simp only [Option.some.injEq, Tree.node.injEq] at hstop
      obtain ⟨rfl, rfl, rfl, rfl, rfl⟩ := hstop
      rw [if_pos hbreak, if_pos hm]
      refine ⟨rfl, ?_⟩
      rw [updateStop_node, if_pos (Or.inr (Or.inl rfl))]
    · rw [if_neg hbreak] at hstop
      rw [if_neg hbreak]
      by_cases hbit : extractBit key.Data nk'.PrefixLen = 1
      · rw [if_pos hbit] at hstop
        rw [if_pos hbit]
        obtain ⟨h2, hs⟩ := ih1 nk nv nim l r hstop hm
        refine ⟨h2, ?_⟩
        rw [updateStop_node, if_neg hbreak, if_pos hbit]
        exact hs
      · rw [if_neg hbit] at hstop
        rw [if_neg hbit]
        obtain ⟨h2, hs⟩ := ih0 nk nv nim l r hstop hm
        refine ⟨h2, ?_⟩
        rw [updateStop_node, if_neg hbreak, if_neg hbit]
        exact hs

/-- Claim C7: whenever `Update`'s descent stops at an existing node whose
`prefixLen` equals the computed match length, `Update` returns `true`, the
new node takes over that node's two child slots in that node's slot (found
again by the same descent), and the net size change is 0 for a
non-intermediate replaced node (optimistic increment undone) and +1 for an
intermediate one. -/
theorem C7_update_replace (V : Type) (t : lpmTrie V) (key : Key) (val : V)
    (nk : Key) (nv : Option V) (nim : Bool) (l r : Tree V)
    (hstop : updateStop t.maxPrefixLen t.keySize key t.root = some (.node nk nv nim l r))
    (hm : nk.PrefixLen = longestPrefixMatch t.keySize nk key) :
    (Update t key val).2 = true ∧
    Size (Update t key val).1 = Size t + (if nim then 1 else 0) ∧
    updateStop t.maxPrefixLen t.keySize key (Update t key val).1.root =
      some (.node key (some val) false l r) := by
  obtain ⟨h2, hs⟩ := updateLoop_replace t.maxPrefixLen t.keySize key val t.root nk nv nim l r hstop hm
  have h21 : (updateLoop t.maxPrefixLen t.keySize key val t.root).2.1 = true := by rw [h2]
  have h22 : (updateLoop t.maxPrefixLen t.keySize key val t.root).2.2 =
      (if nim then 1 else 0) := by rw [h2]
  exact ⟨h21, by simp only [Update, Size]; rw [h22], hs⟩

/-- Witness for C7 on `trieD`, replacing its intermediate root with a
prefix-length-0 key: `Lookup` reported that key not found immediately
before, yet `Update` returns `true`, and the size increment is kept. -/
theorem C7_update_replace_witness :
    Lookup trieD ⟨0, [0, 0, 0, 0]⟩ = (none, false) ∧
    (Update trieD ⟨0, [0, 0, 0, 0]⟩ 7).2 = true ∧
    Size (Update trieD ⟨0, [0, 0, 0, 0]⟩ 7).1 = Size trieD + 1 := by
  have h := C7_update_replace Nat trieD ⟨0, [0, 0, 0, 0]⟩ 7 ⟨0, [0x20, 0, 0, 0]⟩ none true
    (.node ⟨32, [0x20, 0, 0, 0]⟩ (some 2) false .nil .nil)
    (.node ⟨32, [0xA0, 0, 0, 0]⟩ (some 1) false .nil .nil)
    (by decide) (by decide)
  exact ⟨by decide, h.1, by simpa using h.2.1⟩

/-- An empty slot holds no entries. -/
theorem countNonIm_nil_of_isNil {V : Type} (t : Tree V) (h : t.isNil = true) :
    countNonIm t = 0 := by
  cases t with
  | nil => rfl
  | node k v i c0 c1 => exact absurd h (by simp [Tree.isNil])

/-- `Update`'s net size delta equals the change in the number of
non-intermediate nodes, on every tree. -/
theorem updateLoop_count {V : Type} (mpl ks : Nat) (key : Key) (val : V) :
    ∀ t : Tree V,
      (countNonIm (updateLoop mpl ks key val t).1 : Int) =
        countNonIm t + (updateLoop mpl ks key val t).2.2 := by
  intro t
  induction t with
  | nil => simp [updateLoop, countNonIm]
  | node nk nv nim c0 c1 ih0 ih1 =>
    simp only [updateLoop]
    split
    · split
      · cases nim <;> simp [countNonIm] <;> push_cast <;> ring
      · split <;> cases nim <;> simp [countNonIm] <;> push_cast <;> ring
    · split
      · simp only [countNonIm]
        push_cast
        rw [ih1]
        ring
      · simp only [countNonIm]
        push_cast
        rw [ih0]
        ring


/-- A `collapse` outcome only arises under an intermediate parent, so it
never reaches the root slot. -/
theorem deleteLoop_collapse_parentIm {V : Type} (ks : Nat) (key : Key) :
    ∀ (t : Tree V) (pIm : Option Bool),
      deleteLoop ks key pIm t = .collapse → pIm = some true := by
  intro t
  induction t with
  | nil => intro pIm h; exact absurd h (by simp [deleteLoop])
  | node nk nv nim c0 c1 ih0 ih1 =>
    intro pIm h
    simp only [deleteLoop] at h
    split at h
    · split at h
      · split at h
        · exact absurd h (by simp)
        · split at h
          · exact (by assumption : pIm = some true ∧ c0.isNil = true ∧ c1.isNil = true).1
          · split at h
            · exact absurd h (by simp)
            · split at h
              · exact absurd h (by simp)
              · exact absurd h (by simp)
      · exact absurd h (by simp)
    · split at h
      · split at h <;> simp_all
      · split at h <;> simp_all

/-- An accepted `Delete` removes exactly one non-intermediate node from the
tree, in each of its three mutation cases. -/
theorem deleteLoop_count {V : Type} (ks : Nat) (key : Key) :
    ∀ (t : Tree V) (pIm : Option Bool),
      (∀ rt, deleteLoop ks key pIm t = .replaced rt →
        (countNonIm rt : Int) = countNonIm t - 1) ∧
      (deleteLoop ks key pIm t = .collapse → countNonIm t = 1) := by
  intro t
  induction t with
  | nil =>
    intro pIm
    exact ⟨fun rt h => absurd h (by simp [deleteLoop]),
           fun h => absurd h (by simp [deleteLoop])⟩
  | node nk nv nim c0 c1 ih0 ih1 =>
    intro pIm
    constructor
    · intro rt h
      simp only [deleteLoop] at h
      split at h
      · split at h
        next hacc =>
          obtain ⟨-, -, rfl⟩ := hacc
          split at h
          · cases h
            simp only [countNonIm]
            push_cast
            omega
          · split at h
            · exact absurd h (by simp)
            · split at h
              next hboth hcoll hc0 =>
                cases h
                have hn1 : countNonIm c1 = 0 := by
                  cases hx : c1.isNil with
                  | false => exact absurd ⟨hc0, hx⟩ hboth
                  | true => exact countNonIm_nil_of_isNil c1 hx
                simp [countNonIm, hn1]
              · split at h
                next hboth hcoll hc0 hc1 =>
                  cases h
                  have hn0 : countNonIm c0 = 0 := by
                    cases hx : c0.isNil with
                    | false => exact absurd hx hc0
                    | true => exact countNonIm_nil_of_isNil c0 hx
                  simp [countNonIm, hn0]
                next hboth hcoll hc0 hc1 =>
                  cases h
                  have hn0 : countNonIm c0 = 0 := by
                    cases hx : c0.isNil with
                    | false => exact absurd hx hc0
                    | true => exact countNonIm_nil_of_isNil c0 hx
                  have hn1 : countNonIm c1 = 0 := by
                    cases hx : c1.isNil with
                    | false => exact absurd hx hc1
                    | true => exact countNonIm_nil_of_isNil c1 hx
                  simp [countNonIm, hn0, hn1]
        next hacc => exact absurd h (by simp)
      · split at h
        · split at h
          next heq =>
            exact absurd h (by simp)
          next c1' heq =>
            cases h
            have := (ih1 (some nim)).1 c1' heq
            simp only [countNonIm]
            push_cast
            push_cast at this
            omega
          next heq =>
            cases h
            have hcnt := (ih1 (some nim)).2 heq
            have hpim := deleteLoop_collapse_parentIm ks key c1 (some nim) heq
            have : nim = true := by injection hpim
            subst this
            simp only [countNonIm, hcnt]
            push_cast
            ring
        · split at h
          next heq =>
            exact absurd h (by simp)
          next c0' heq =>
            cases h
            have := (ih0 (some nim)).1 c0' heq
            simp only [countNonIm]
            push_cast
            push_cast at this
            omega
          next heq =>
            cases h
            have hcnt := (ih0 (some nim)).2 heq
            have hpim := deleteLoop_collapse_parentIm ks key c0 (some nim) heq
            have : nim = true := by injection hpim
            subst this
            simp only [countNonIm, hcnt]
            push_cast
            ring
    · intro h
      simp only [deleteLoop] at h
      split at h
      · split at h
        next hacc =>
          obtain ⟨-, -, rfl⟩ := hacc
          split at h
          · exact absurd h (by simp)
          · split at h
            next hboth hcoll =>
              have hn0 : countNonIm c0 = 0 := countNonIm_nil_of_isNil c0 hcoll.2.1
              have hn1 : countNonIm c1 = 0 := countNonIm_nil_of_isNil c1 hcoll.2.2
              simp [countNonIm, hn0, hn1]
            · split at h
              · exact absurd h (by simp)
              · split at h <;> exact absurd h (by simp)
        next hacc => exact absurd h (by simp)
      · split at h
        · split at h <;> exact absurd h (by simp)
        · split at h <;> exact absurd h (by simp)


/-- Claim C4: after any finite single-threaded sequence of `Update`/`Delete`
calls with valid keys from a fresh trie, `Size()` equals the number of
reachable nodes whose intermediate flag is false. -/
theorem C4_size_exact (V : Type) (t : lpmTrie V) (h : Reachable t) :
    Size t = (countNonIm t.root : Int) := by
  induction h with
  | new mpl t0 ht =>
    unfold New at ht
    split at ht
    · exact absurd ht (by simp)
    · cases ht; simp [Size, countNonIm]
  | update t0 key val hr hvalid ih =>
    have hc := updateLoop_count t0.maxPrefixLen t0.keySize key val t0.root
    simp only [Update, Size] at *
    omega
  | delete t0 key hr hvalid ih =>
    have hdel := deleteLoop_count t0.keySize key t0.root none
    simp only [Delete]
    rcases hd : deleteLoop t0.keySize key none t0.root with _ | rt | _ <;> simp only [hd]
    · exact ih
    · have hcnt := hdel.1 rt hd
      simp only [Size] at *
      omega
    · exact absurd (deleteLoop_collapse_parentIm t0.keySize key t0.root none hd) (by simp)

/-- Witness for C4 on the concrete reachable trie `trieD`. -/
theorem C4_size_exact_witness : Size trieD = (countNonIm trieD.root : Int) :=
  C4_size_exact Nat trieD
    (.update _ _ _ (.update _ _ _ (.new 32 emptyTrie32 rfl) (by decide)) (by decide))


/-- `Update` always publishes a node (never an empty slot). -/
theorem updateLoop_not_nil {V : Type} (mpl ks : Nat) (key : Key) (val : V) (t : Tree V) :
    (updateLoop mpl ks key val t).1.isNil = false := by
  cases t with
  | nil => rfl
  | node nk nv nim c0 c1 =>
    simp only [updateLoop]
    split
    · split
      · rfl
      · split <;> rfl
    · split <;> rfl

/-- `Update` preserves the both-children property of intermediate nodes:
the fresh intermediate fork always receives two occupied children. -/
theorem updateLoop_imOk {V : Type} (mpl ks : Nat) (key : Key) (val : V) :
    ∀ t : Tree V, imOk t = true → imOk (updateLoop mpl ks key val t).1 = true := by
  intro t
  induction t with
  | nil => intro _; simp [updateLoop, imOk, Tree.isNil]
  | node nk nv nim c0 c1 ih0 ih1 =>
    intro h
    simp only [imOk, Tree.isNil, Bool.and_eq_true, Bool.or_eq_true,
      Bool.not_eq_true'] at h
    obtain ⟨⟨him, h0⟩, h1⟩ := h
    simp only [updateLoop]
    split
    · split
      · simp only [imOk, Tree.isNil, Bool.and_eq_true, Bool.or_eq_true, Bool.not_eq_true']
        tauto
      · split <;>
        · simp only [imOk, Tree.isNil, Bool.and_eq_true, Bool.or_eq_true, Bool.not_eq_true']
          tauto
    · split
      · have hres := ih1 h1
        have hn := updateLoop_not_nil mpl ks key val c1
        simp only [imOk, Tree.isNil, Bool.and_eq_true, Bool.or_eq_true, Bool.not_eq_true']
        tauto
      · have hres := ih0 h0
        have hn := updateLoop_not_nil mpl ks key val c0
        simp only [imOk, Tree.isNil, Bool.and_eq_true, Bool.or_eq_true, Bool.not_eq_true']
        tauto


/-- `Delete` preserves the both-children property of intermediate nodes:
an empty slot is only ever stored below a non-intermediate parent (or the
root), and the in-place conversion requires both children occupied. -/
theorem deleteLoop_imOk {V : Type} (ks : Nat) (key : Key) :
    ∀ (t : Tree V) (pIm : Option Bool), imOk t = true →
      ∀ rt, deleteLoop ks key pIm t = .replaced rt →
        imOk rt = true ∧ (rt.isNil = true → pIm ≠ some true) := by
  intro t
  induction t with
  | nil => intro pIm _ rt h; exact absurd h (by simp [deleteLoop])
  | node nk nv nim c0 c1 ih0 ih1 =>
    intro pIm h rt hr
    simp only [imOk, Tree.isNil, Bool.and_eq_true, Bool.or_eq_true,
      Bool.not_eq_true'] at h
    obtain ⟨⟨him, h0⟩, h1⟩ := h
    simp only [deleteLoop] at hr
    split at hr
    · split at hr
      next hacc =>
        split at hr
        next hboth =>
          cases hr
          constructor
          · simp only [imOk, Tree.isNil, Bool.and_eq_true, Bool.or_eq_true, Bool.not_eq_true']
            tauto
          · intro hx; exact absurd hx (by simp [Tree.isNil])
        next hboth =>
          split at hr
          · exact absurd hr (by simp)
          · split at hr
            next hcoll hc0 =>
              cases hr
              refine ⟨h0, fun hx => absurd hx (by simp [hc0])⟩
            · split at hr
              next hboth hcoll hc0 hc1 =>
                cases hr
                refine ⟨h1, fun hx => absurd hx (by simp [hc1])⟩
              next hboth hcoll hc0 hc1 =>
                cases hr
                refine ⟨rfl, fun _ hp => ?_⟩
                have hn0 : c0.isNil = true := by
                  cases hx : c0.isNil with
                  | false => exact absurd hx hc0
                  | true => rfl
                have hn1 : c1.isNil = true := by
                  cases hx : c1.isNil with
                  | false => exact absurd hx hc1
                  | true => rfl
                exact hcoll ⟨hp, hn0, hn1⟩
      next hacc => exact absurd hr (by simp)
    · split at hr
      · split at hr
        next heq => exact absurd hr (by simp)
        next c1' heq =>
          cases hr
          obtain ⟨hok, hnil⟩ := ih1 (some nim) h1 c1' heq
          constructor
          · have hc1' : nim = true → c1'.isNil = false := by
              intro hni
              cases hx : c1'.isNil with
              | false => rfl
              | true => exact absurd (by rw [hni] : some nim = some true) (hnil hx)
            simp only [imOk, Tree.isNil, Bool.and_eq_true, Bool.or_eq_true, Bool.not_eq_true']
            refine ⟨⟨?_, h0⟩, hok⟩
            rcases him with hf | ⟨ha, hb⟩
            · exact Or.inl hf
            · cases hni : nim with
              | false => exact Or.inl rfl
              | true => exact Or.inr ⟨ha, hc1' hni⟩
          · intro hx; exact absurd hx (by simp [Tree.isNil])
        next heq =>
          cases hr
          have hni : nim = true := by
            have := deleteLoop_collapse_parentIm ks key c1 (some nim) heq
            injection this
          refine ⟨h0, fun hx hp => ?_⟩
          rcases him with hf | ⟨ha, hb⟩
          · simp_all
          · cases c0 with
            | nil => simp [Tree.isNil] at ha
            | node _ _ _ _ _ => simp [Tree.isNil] at hx
      · split at hr
        next heq => exact absurd hr (by simp)
        next c0' heq =>
          cases hr
          obtain ⟨hok, hnil⟩ := ih0 (some nim) h0 c0' heq
          constructor
          · have hc0' : nim = true → c0'.isNil = false := by
              intro hni
              cases hx : c0'.isNil with
              | false => rfl
              | true => exact absurd (by rw [hni] : some nim = some true) (hnil hx)
            simp only [imOk, Tree.isNil, Bool.and_eq_true, Bool.or_eq_true, Bool.not_eq_true']
            refine ⟨⟨?_, hok⟩, h1⟩
            rcases him with hf | ⟨ha, hb⟩
            · exact Or.inl hf
            · cases hni : nim with
              | false => exact Or.inl rfl
              | true => exact Or.inr ⟨hc0' hni, hb⟩
          · intro hx; exact absurd hx (by simp [Tree.isNil])
        next heq =>
          cases hr
          have hni : nim = true := by
            have := deleteLoop_collapse_parentIm ks key c0 (some nim) heq
            injection this
          refine ⟨h1, fun hx hp => ?_⟩
          rcases him with hf | ⟨ha, hb⟩
          · simp_all
          · cases c1 with
            | nil => simp [Tree.isNil] at hb
            | node _ _ _ _ _ => simp [Tree.isNil] at hx


/-- Claim C10: in every reachable trie, every reachable node whose
intermediate flag is true has both child slots non-empty. -/
theorem C10_intermediate_two_children (V : Type) (t : lpmTrie V) (h : Reachable t) :
    imOk t.root = true := by
  induction h with
  | new mpl t0 ht =>
    unfold New at ht
    split at ht
    · exact absurd ht (by simp)
    · cases ht; rfl
  | update t0 key val hr hvalid ih =>
    exact updateLoop_imOk t0.maxPrefixLen t0.keySize key val t0.root ih
  | delete t0 key hr hvalid ih =>
    simp only [Delete]
    rcases hd : deleteLoop t0.keySize key none t0.root with _ | rt | _ <;> simp only [hd]
    · exact ih
    · exact (deleteLoop_imOk t0.keySize key t0.root none ih rt hd).1
    · exact ih

/-- Witness for C10 on the concrete reachable trie `trieD`. -/
theorem C10_intermediate_two_children_witness : imOk trieD.root = true :=
  C10_intermediate_two_children Nat trieD
    (.update _ _ _ (.update _ _ _ (.new 32 emptyTrie32 rfl) (by decide)) (by decide))

/-- Bit of a base-2^m digit pair: positions below `m` read the low digit,
positions at or above `m` read the high digit. -/
theorem testBit_split (a b k m : Nat) (hb : b < 2 ^ m) :
    (a * 2 ^ m + b).testBit k = if k < m then b.testBit k else a.testBit (k - m) := by
  rcases lt_or_ge k m with hk | hk
  · rw [if_pos hk]
    have hpow : (2:Nat) ^ m = 2 ^ (m - k - 1) * 2 * 2 ^ k := by
      rw [Nat.mul_assoc, ← pow_succ', ← pow_add]
      congr 1
      omega
    have h2 : a * 2 ^ m = a * 2 ^ (m - k - 1) * 2 * 2 ^ k := by
      rw [hpow, ← Nat.mul_assoc, ← Nat.mul_assoc]
    have key : (a * 2 ^ m + b) / 2 ^ k % 2 = b / 2 ^ k % 2 := by
      rw [h2, Nat.add_comm, Nat.add_mul_div_right _ _ (Nat.two_pow_pos k),
        Nat.add_mul_mod_self_right]
    simp [Nat.testBit_to_div_mod, key]
  · rw [if_neg (by omega)]
    have key : (a * 2 ^ m + b) / 2 ^ k = a / 2 ^ (k - m) := by
      have h2 : (2:Nat) ^ k = 2 ^ m * 2 ^ (k - m) := by
        rw [← pow_add]
        congr 1
        omega
      rw [h2, ← Nat.div_div_eq_div_mul, Nat.add_comm,
        Nat.add_mul_div_right _ _ (Nat.two_pow_pos m), Nat.div_eq_of_lt hb, Nat.zero_add]
    simp [Nat.testBit_to_div_mod, key]

/-- Total byte access stays below 256 (default 0 included). -/
theorem getD_lt_256 (d : List Nat) (hd : ∀ x ∈ d, x < 256) (n : Nat) :
    d.getD n 0 < 256 := by
  show (d.get? n).getD 0 < 256
  rcases hx : d.get? n with _ | x
  · norm_num
  · exact hd x (List.get?_mem hx)

/-- A big-endian group of `B` bytes is a `8*B`-bit value. -/
theorem beBytes_lt (d : List Nat) (hd : ∀ x ∈ d, x < 256) (i : Nat) :
    ∀ B, beBytes d i B < 2 ^ (8 * B) := by
  intro B
  induction B with
  | zero => simp [beBytes]
  | succ B ih =>
    have hlast := getD_lt_256 d hd (i + B)
    have heq : beBytes d i (B + 1) = beBytes d i B * 2 ^ 8 + d.getD (i + B) 0 := by
      simp [beBytes]
    have hexp : (2:Nat) ^ (8 * B) * 2 ^ 8 = 2 ^ (8 * (B + 1)) := by
      have h8 : 8 * B + 8 = 8 * (B + 1) := by omega
      rw [← pow_add, h8]
    rw [heq]
    calc beBytes d i B * 2 ^ 8 + d.getD (i + B) 0
        < (beBytes d i B + 1) * 2 ^ 8 := by
          have : (beBytes d i B + 1) * 2 ^ 8 = beBytes d i B * 2 ^ 8 + 2 ^ 8 := by ring
          omega
      _ ≤ 2 ^ (8 * B) * 2 ^ 8 := Nat.mul_le_mul_right _ ih
      _ = 2 ^ (8 * (B + 1)) := hexp

/-- Bit `j` (counted from the most significant end) of a big-endian byte
group is the corresponding bit of the corresponding byte. -/
theorem beBytes_testBit (d : List Nat) (hd : ∀ x ∈ d, x < 256) (i : Nat) :
    ∀ B j, j < 8 * B →
      (beBytes d i B).testBit (8 * B - 1 - j) =
        (d.getD (i + j / 8) 0).testBit (7 - j % 8) := by
  intro B
  induction B with
  | zero => intro j hj; omega
  | succ B ih =>
    intro j hj
    have heq : beBytes d i (B + 1) = beBytes d i B * 2 ^ 8 + d.getD (i + B) 0 := by
      simp [beBytes]
    have hlast := getD_lt_256 d hd (i + B)
    rw [heq, testBit_split _ _ _ _ hlast]
    rcases lt_or_ge j (8 * B) with hjB | hjB
    · rw [if_neg (by omega)]
      have harith : 8 * (B + 1) - 1 - j - 8 = 8 * B - 1 - j := by omega
      rw [harith]
      exact ih j hjB
    · rw [if_pos (by omega)]
      have hdiv : j / 8 = B := by omega
      have hmod : j % 8 = j - 8 * B := by omega
      have harith : 8 * (B + 1) - 1 - j = 7 - (j - 8 * B) := by omega
      rw [harith, hdiv, hmod]


/-- `extractBit` as a `testBit` of the addressed byte. -/
theorem extractBit_eq_testBit (d : List Nat) (p : Nat) :
    extractBit d p = (if (d.getD (p / 8) 0).testBit (7 - p % 8) then 1 else 0) := by
  unfold extractBit
  rw [Nat.and_one_is_mod, Nat.shiftRight_eq_div_pow, Nat.testBit_to_div_mod]
  rcases Nat.mod_two_eq_zero_or_one (d.getD (p / 8) 0 / 2 ^ (7 - p % 8)) with h | h <;>
    rw [h] <;> simp

/-- A leading-zero count never exceeds the width. -/
theorem leadingZeros_le (w z : Nat) : leadingZeros w z ≤ w := by
  induction w with
  | zero => simp [leadingZeros]
  | succ w ih =>
    simp only [leadingZeros]
    split
    · omega
    · omega

/-- The word 0 has only leading zeros. -/
theorem leadingZeros_zero (w : Nat) : leadingZeros w 0 = w := by
  induction w with
  | zero => rfl
  | succ w ih => simp [leadingZeros, ih]

/-- All bits above the first set bit are zero. -/
theorem leadingZeros_testBit_false (w z : Nat) :
    ∀ j, j < leadingZeros w z → z.testBit (w - 1 - j) = false := by
  induction w with
  | zero => simp [leadingZeros]
  | succ w ih =>
    intro j hj
    simp only [leadingZeros] at hj
    split at hj
    · omega
    next hbit =>
      rcases j with _ | j
      · simpa using Bool.of_not_eq_true hbit
      · have := ih j (by omega)
        have harith : w + 1 - 1 - (j + 1) = w - 1 - j := by omega
        rw [harith]
        exact this

/-- When the count is short of the width, the stopping bit is set. -/
theorem leadingZeros_testBit_true (w z : Nat) (h : leadingZeros w z < w) :
    z.testBit (w - 1 - leadingZeros w z) = true := by
  induction w with
  | zero => simp [leadingZeros] at h
  | succ w ih =>
    simp only [leadingZeros] at h ⊢
    split
    next hbit => simpa using hbit
    next hbit =>
      rw [if_neg hbit] at h
      have := ih (by omega)
      have harith : w + 1 - 1 - (leadingZeros w z + 1) = w - 1 - leadingZeros w z := by
        omega
      rw [harith]
      exact this

/-- A `w`-bit value whose leading-zero count is `w` is zero. -/
theorem eq_zero_of_leadingZeros_eq (w z : Nat) (hz : z < 2 ^ w)
    (h : leadingZeros w z = w) : z = 0 := by
  apply Nat.eq_of_testBit_eq
  intro k
  simp only [Nat.zero_testBit]
  rcases lt_or_ge k w with hk | hk
  · have := leadingZeros_testBit_false w z (w - 1 - k) (by omega)
    have harith : w - 1 - (w - 1 - k) = k := by omega
    rwa [harith] at this
  · exact Nat.testBit_lt_two_pow (lt_of_lt_of_le hz (Nat.pow_le_pow_right (by norm_num) hk))


/-- The leading-zero count of the XOR of two big-endian byte groups locates
the first differing bit of the underlying buffers within the group. -/
theorem chunkFacts (nd kd : List Nat) (hnd : ∀ x ∈ nd, x < 256)
    (hkd : ∀ x ∈ kd, x < 256) (i B c : Nat)
    (hc : c = leadingZeros (8 * B) (beBytes nd i B ^^^ beBytes kd i B)) :
    c ≤ 8 * B ∧
    (∀ j, j < c → extractBit nd (8 * i + j) = extractBit kd (8 * i + j)) ∧
    (c < 8 * B → extractBit nd (8 * i + c) ≠ extractBit kd (8 * i + c)) ∧
    ((beBytes nd i B ^^^ beBytes kd i B = 0) ↔ c = 8 * B) := by
  have hbit : ∀ j, j < 8 * B →
      (((beBytes nd i B ^^^ beBytes kd i B).testBit (8 * B - 1 - j) = false) ↔
        extractBit nd (8 * i + j) = extractBit kd (8 * i + j)) := by
    intro j hj
    have e1 := beBytes_testBit nd hnd i B j hj
    have e2 := beBytes_testBit kd hkd i B j hj
    have hidx1 : (8 * i + j) / 8 = i + j / 8 := by omega
    have hidx2 : (8 * i + j) % 8 = j % 8 := by omega
    rw [Nat.testBit_xor, e1, e2, extractBit_eq_testBit, extractBit_eq_testBit, hidx1, hidx2]
    cases (nd.getD (i + j / 8) 0).testBit (7 - j % 8) <;>
      cases (kd.getD (i + j / 8) 0).testBit (7 - j % 8) <;> simp
  have hle : c ≤ 8 * B := hc ▸ leadingZeros_le (8 * B) _
  refine ⟨hle, ?_, ?_, ?_⟩
  · intro j hj
    have hf := leadingZeros_testBit_false (8 * B) (beBytes nd i B ^^^ beBytes kd i B) j (hc ▸ hj)
    exact (hbit j (by omega)).mp hf
  · intro hlt
    have ht := leadingZeros_testBit_true (8 * B) (beBytes nd i B ^^^ beBytes kd i B) (hc ▸ hlt)
    rw [← hc] at ht
    intro heq
    have := (hbit c hlt).mpr heq
    rw [this] at ht
    cases ht
  · constructor
    · intro hz
      rw [hc, hz, leadingZeros_zero]
    · intro h8
      exact eq_zero_of_leadingZeros_eq (8 * B) _
        (Nat.xor_lt_two_pow (beBytes_lt nd hnd i B) (beBytes_lt kd hkd i B)) (hc ▸ h8)


/-- Characterisation of the bit-by-bit scan `firstDiff`: it stays in range,
all scanned positions before it agree, and it stops on a disagreement. -/
theorem firstDiff_spec (nd kd : List Nat) :
    ∀ n j, j ≤ firstDiff nd kd n j ∧ firstDiff nd kd n j ≤ j + n ∧
      (∀ p, j ≤ p → p < firstDiff nd kd n j → extractBit nd p = extractBit kd p) ∧
      (firstDiff nd kd n j < j + n →
        extractBit nd (firstDiff nd kd n j) ≠ extractBit kd (firstDiff nd kd n j)) := by
  intro n
  induction n with
  | zero =>
    intro j
    simp only [firstDiff]
    exact ⟨le_refl j, by omega, fun p hp1 hp2 => by omega, fun h => by omega⟩
  | succ n ih =>
    intro j
    simp only [firstDiff]
    split
    next heq =>
      obtain ⟨ih1, ih2, ih3, ih4⟩ := ih (j + 1)
      refine ⟨by omega, by omega, ?_, ?_⟩
      · intro p hp1 hp2
        rcases eq_or_lt_of_le hp1 with rfl | hgt
        · exact heq
        · exact ih3 p (by omega) hp2
      · intro hlt
        exact ih4 (by omega)
    next hne =>
      exact ⟨le_refl j, by omega, fun p hp1 hp2 => by omega, fun _ => hne⟩

/-- If the first `q` bit positions agree, the scan reaches at least `q`. -/
theorem firstDiff_ge (nd kd : List Nat) (n q : Nat) (hq : q ≤ n)
    (heq : ∀ p, p < q → extractBit nd p = extractBit kd p) :
    q ≤ firstDiff nd kd n 0 := by
  by_contra hlt
  push_neg at hlt
  obtain ⟨h1, h2, h3, h4⟩ := firstDiff_spec nd kd n 0
  exact h4 (by omega) (heq _ (by omega))

/-- The scan stops exactly on the first disagreeing position. -/
theorem firstDiff_eq (nd kd : List Nat) (n q : Nat) (hq : q < n)
    (heq : ∀ p, p < q → extractBit nd p = extractBit kd p)
    (hne : extractBit nd q ≠ extractBit kd q) :
    firstDiff nd kd n 0 = q := by
  have hge := firstDiff_ge nd kd n q (le_of_lt hq) heq
  obtain ⟨h1, h2, h3, h4⟩ := firstDiff_spec nd kd n 0
  rcases eq_or_lt_of_le hge with h | h
  · exact h.symm
  · exact absurd (h3 q (Nat.zero_le q) h) hne

/-- If all scanned positions agree, the scan runs to the end. -/
theorem firstDiff_all (nd kd : List Nat) (n : Nat)
    (heq : ∀ p, p < n → extractBit nd p = extractBit kd p) :
    firstDiff nd kd n 0 = n := by
  obtain ⟨h1, h2, h3, h4⟩ := firstDiff_spec nd kd n 0
  rcases eq_or_lt_of_le h2 with h | h
  · simpa using h
  · exact absurd (heq _ (by omega)) (h4 (by omega))

/-- A one-byte group is the byte itself. -/
theorem beBytes_one (d : List Nat) (i : Nat) : beBytes d i 1 = d.getD i 0 := by
  simp [beBytes]

/-- The three facts a chunk step needs about the reference scan: the scan
reaches past the bits this chunk found equal, it stops exactly at the
chunk's divergence point, and a zero XOR extends the all-equal region. -/
theorem chunkCases (nd kd : List Nat) (hnd : ∀ x ∈ nd, x < 256)
    (hkd : ∀ x ∈ kd, x < 256) (ks i B c : Nat)
    (hc : c = leadingZeros (8 * B) (beBytes nd i B ^^^ beBytes kd i B))
    (hin : i + B ≤ ks)
    (heq : ∀ q, q < 8 * i → extractBit nd q = extractBit kd q) :
    8 * i + c ≤ firstDiff nd kd (8 * ks) 0 ∧
    (c < 8 * B → firstDiff nd kd (8 * ks) 0 = 8 * i + c) ∧
    ((beBytes nd i B ^^^ beBytes kd i B) = 0 →
      ∀ q, q < 8 * (i + B) → extractBit nd q = extractBit kd q) := by
  obtain ⟨hcle, hceq, hcne, hczero⟩ := chunkFacts nd kd hnd hkd i B c hc
  have heq' : ∀ q, q < 8 * i + c → extractBit nd q = extractBit kd q := by
    intro q hq
    rcases lt_or_ge q (8 * i) with h | h
    · exact heq q h
    · have := hceq (q - 8 * i) (by omega)
      rwa [(by omega : 8 * i + (q - 8 * i) = q)] at this
  refine ⟨firstDiff_ge nd kd (8 * ks) (8 * i + c) (by omega) heq', ?_, ?_⟩
  · intro hlt
    exact firstDiff_eq nd kd (8 * ks) (8 * i + c) (by omega) heq' (hcne hlt)
  · intro hz q hq
    have hc8 : c = 8 * B := hczero.mp hz
    exact heq' q (by omega)


/-- The 8-bit tail chunk computes `min limit (firstDiff …)` under the loop
invariant (all bits before `8*i` equal, running prefix within `limit`). -/
theorem lpmLoop8_correct (nd kd : List Nat) (hnd : ∀ x ∈ nd, x < 256)
    (hkd : ∀ x ∈ kd, x < 256) (ks limit i : Nat)
    (hlim : limit ≤ 8 * ks) (hks : ks ≤ i + 1) (hik : i ≤ ks)
    (hp : 8 * i ≤ limit)
    (heq : ∀ q, q < 8 * i → extractBit nd q = extractBit kd q) :
    lpmLoop8 ks nd kd limit i (8 * i) = min limit (firstDiff nd kd (8 * ks) 0) := by
  simp only [lpmLoop8]
  split
  next hin =>
    have hc : leadingZeros 8 (nd.getD i 0 ^^^ kd.getD i 0) =
        leadingZeros (8 * 1) (beBytes nd i 1 ^^^ beBytes kd i 1) := by
      rw [beBytes_one, beBytes_one]
    obtain ⟨hD1, hD2, hD3⟩ := chunkCases nd kd hnd hkd ks i 1
      (leadingZeros 8 (nd.getD i 0 ^^^ kd.getD i 0)) hc (by omega) heq
    split
    next hlim2 => exact (min_eq_left (le_trans hlim2 hD1)).symm
    next hlim2 =>
      push_neg at hlim2
      rw [hD2 (by omega), min_eq_right (by omega)]
  next hin =>
    have hik2 : i = ks := by omega
    subst hik2
    rw [firstDiff_all nd kd (8 * i) heq]
    have hl : limit = 8 * i := by omega
    rw [hl, min_self]


/-- The 16-bit chunk followed by the 8-bit chunk computes
`min limit (firstDiff …)` under the loop invariant. -/
theorem lpmTail_correct (nd kd : List Nat) (hnd : ∀ x ∈ nd, x < 256)
    (hkd : ∀ x ∈ kd, x < 256) (ks limit i : Nat)
    (hlim : limit ≤ 8 * ks) (hks : ks < i + 4) (hik : i ≤ ks)
    (hp : 8 * i ≤ limit)
    (heq : ∀ q, q < 8 * i → extractBit nd q = extractBit kd q) :
    lpmTail ks nd kd limit i (8 * i) = min limit (firstDiff nd kd (8 * ks) 0) := by
  simp only [lpmTail]
  split
  next hin =>
    have hc : leadingZeros 16 (beBytes nd i 2 ^^^ beBytes kd i 2) =
        leadingZeros (8 * 2) (beBytes nd i 2 ^^^ beBytes kd i 2) := rfl
    obtain ⟨hD1, hD2, hD3⟩ := chunkCases nd kd hnd hkd ks i 2 _ hc (by omega) heq
    obtain ⟨-, -, -, hz⟩ := chunkFacts nd kd hnd hkd i 2 _ hc
    split
    next hlim2 => exact (min_eq_left (le_trans hlim2 hD1)).symm
    next hlim2 =>
      push_neg at hlim2
      split
      next hdz =>
        have hcle : leadingZeros 16 (beBytes nd i 2 ^^^ beBytes kd i 2) ≤ 8 * 2 :=
          leadingZeros_le (8 * 2) _
        have hne16 : leadingZeros 16 (beBytes nd i 2 ^^^ beBytes kd i 2) ≠ 8 * 2 :=
          fun h => hdz (hz.mpr h)
        rw [hD2 (by omega), min_eq_right (by omega)]
      next hdz =>
        push_neg at hdz
        have hc16 : leadingZeros 16 (beBytes nd i 2 ^^^ beBytes kd i 2) = 8 * 2 := hz.mp hdz
        rw [hc16, (by omega : 8 * i + 8 * 2 = 8 * (i + 2))]
        have hp' : 8 * (i + 2) ≤ limit := by
          rw [hc16] at hlim2
          omega
        exact lpmLoop8_correct nd kd hnd hkd ks limit (i + 2) hlim (by omega) (by omega) hp'
          (fun q hq => hD3 hdz q (by omega))
  next hin =>
    exact lpmLoop8_correct nd kd hnd hkd ks limit i hlim (by omega) hik hp heq


/-- The 32-bit chunk loop (with its 16/8-bit continuation) computes
`min limit (firstDiff …)` under the loop invariant. -/
theorem lpmLoop32_correct (nd kd : List Nat) (hnd : ∀ x ∈ nd, x < 256)
    (hkd : ∀ x ∈ kd, x < 256) (ks limit : Nat) (hlim : limit ≤ 8 * ks) :
    ∀ rem i, i + rem = ks → 8 * i ≤ limit →
      (∀ q, q < 8 * i → extractBit nd q = extractBit kd q) →
      (match lpmLoop32 nd kd limit rem i (8 * i) with
       | .inl r => r
       | .inr ip => lpmTail ks nd kd limit ip.1 ip.2) =
        min limit (firstDiff nd kd (8 * ks) 0) := by
  intro rem
  induction rem using Nat.strong_induction_on with
  | _ rem ih =>
    intro i hrem hp heq
    rcases rem with _ | _ | _ | _ | rem4
    · simp only [lpmLoop32]
      exact lpmTail_correct nd kd hnd hkd ks limit i hlim (by omega) (by omega) hp heq
    · simp only [lpmLoop32]
      exact lpmTail_correct nd kd hnd hkd ks limit i hlim (by omega) (by omega) hp heq
    · simp only [lpmLoop32]
      exact lpmTail_correct nd kd hnd hkd ks limit i hlim (by omega) (by omega) hp heq
    · simp only [lpmLoop32]
      exact lpmTail_correct nd kd hnd hkd ks limit i hlim (by omega) (by omega) hp heq
    · simp only [lpmLoop32]
      have hc : leadingZeros 32 (beBytes nd i 4 ^^^ beBytes kd i 4) =
          leadingZeros (8 * 4) (beBytes nd i 4 ^^^ beBytes kd i 4) := rfl
      obtain ⟨hD1, hD2, hD3⟩ := chunkCases nd kd hnd hkd ks i 4 _ hc (by omega) heq
      obtain ⟨-, -, -, hz⟩ := chunkFacts nd kd hnd hkd i 4 _ hc
      by_cases hlim2 : limit ≤ 8 * i + leadingZeros 32 (beBytes nd i 4 ^^^ beBytes kd i 4)
      · rw [if_pos hlim2]
        exact (min_eq_left (le_trans hlim2 hD1)).symm
      · rw [if_neg hlim2]
        push_neg at hlim2
        by_cases hdz : beBytes nd i 4 ^^^ beBytes kd i 4 ≠ 0
        · rw [if_pos hdz]
          have hcle := leadingZeros_le (8 * 4) (beBytes nd i 4 ^^^ beBytes kd i 4)
          have hne : leadingZeros 32 (beBytes nd i 4 ^^^ beBytes kd i 4) ≠ 8 * 4 :=
            fun h => absurd (hz.mpr h) hdz
          rw [hD2 (by omega), min_eq_right (by omega)]
        · rw [if_neg hdz]
          push_neg at hdz
          have hc32 : leadingZeros 32 (beBytes nd i 4 ^^^ beBytes kd i 4) = 8 * 4 := hz.mp hdz
          rw [hc32, (by omega : 8 * i + 8 * 4 = 8 * (i + 4))]
          have hp' : 8 * (i + 4) ≤ limit := by
            rw [hc32] at hlim2
            omega
          exact ih rem4 (by omega) (i + 4) (by omega) hp' (fun q hq => hD3 hdz q (by omega))


/-- Claim C5: for data buffers of length `keySize` (bytes `< 256`) and
prefix lengths within `maxPrefixLen = 8*keySize`, the chunked
`longestPrefixMatch` equals `min limit d` where
`limit = min(node.PrefixLen, key.PrefixLen)` and `d` is the index of the
first differing bit found by a bit-by-bit reference scan. -/
theorem C5_longestPrefixMatch_ref (ks : Nat) (nodeKey key : Key)
    (hlen1 : nodeKey.Data.length = ks) (hlen2 : key.Data.length = ks)
    (hb1 : ∀ x ∈ nodeKey.Data, x < 256) (hb2 : ∀ x ∈ key.Data, x < 256)
    (hp1 : nodeKey.PrefixLen ≤ 8 * ks) (hp2 : key.PrefixLen ≤ 8 * ks) :
    longestPrefixMatch ks nodeKey key =
      min (min nodeKey.PrefixLen key.PrefixLen)
        (firstDiff nodeKey.Data key.Data (8 * ks) 0) := by
  have hlim : min nodeKey.PrefixLen key.PrefixLen ≤ 8 * ks :=
    le_trans (min_le_left _ _) hp1
  have h := lpmLoop32_correct nodeKey.Data key.Data hb1 hb2 ks
    (min nodeKey.PrefixLen key.PrefixLen) hlim ks 0 (by omega) (by omega)
    (fun q hq => by omega)
  simp only [Nat.mul_zero] at h
  rcases hres : lpmLoop32 nodeKey.Data key.Data (min nodeKey.PrefixLen key.PrefixLen) ks 0 0
    with r | ⟨i1, p1⟩
  · rw [hres] at h
    simp only [longestPrefixMatch, hres]
    exact h
  · rw [hres] at h
    simp only [longestPrefixMatch, hres]
    exact h

/-- Witness for C5 on concrete 4-byte keys that diverge at bit 8. -/
theorem C5_longestPrefixMatch_ref_witness :
    longestPrefixMatch 4 ⟨32, [0xA0, 0, 0, 0]⟩ ⟨8, [0xA0, 0x80, 0, 0]⟩ =
      min (min 32 8) (firstDiff [0xA0, 0, 0, 0] [0xA0, 0x80, 0, 0] (8 * 4) 0) :=
  C5_longestPrefixMatch_ref 4 ⟨32, [0xA0, 0, 0, 0]⟩ ⟨8, [0xA0, 0x80, 0, 0]⟩
    (by decide) (by decide) (by decide) (by decide) (by decide) (by decide)

/-- Claim C9: `New(maxPrefixLen)` returns an error value exactly when
`maxPrefixLen <= 0` or `maxPrefixLen` is not a multiple of 8; on success the
trie has `keySize = maxPrefixLen/8` and is empty: `Size()` is 0, `Lookup` on
any valid key reports not-found, and `Range` performs no visitor invocation. -/
theorem C9_new_validation (V : Type) (mpl : Int) :
    ((New V mpl).isOk = false ↔ mpl ≤ 0 ∨ mpl % 8 ≠ 0) ∧
    (∀ t : lpmTrie V, New V mpl = .ok t →
      (t.keySize : Int) = mpl / 8 ∧ Size t = 0 ∧
      (∀ key, isValidKey t key = true → Lookup t key = (none, false)) ∧
      (∀ fn, Range t fn = [])) := by
  constructor
  · unfold New
    split
    next h =>
      simp only [Bool.or_eq_true, decide_eq_true_eq, bne_iff_ne] at h
      simpa [Except.isOk, Except.toBool] using h
    next h =>
      simp only [Bool.or_eq_true, decide_eq_true_eq, bne_iff_ne] at h
      push_neg at h
      simpa [Except.isOk, Except.toBool] using h
  · intro t ht
    unfold New at ht
    split at ht
    · exact absurd ht (by simp)
    next h =>
      simp only [Bool.or_eq_true, decide_eq_true_eq, bne_iff_ne] at h
      push_neg at h
      cases ht
      refine ⟨?_, rfl, fun key _ => rfl, fun fn => rfl⟩
      have : (0:Int) ≤ mpl / 8 := Int.ediv_nonneg (le_of_lt h.1) (by norm_num)
      simp [Int.toNat_of_nonneg this]

/-- Witness for C9 at `maxPrefixLen = 32`: the concrete empty trie. -/
theorem C9_new_validation_witness :
    Size emptyTrie32 = 0 ∧
    Lookup emptyTrie32 ⟨32, [0, 0, 0, 0]⟩ = (none, false) ∧
    Range emptyTrie32 (fun _ _ => true) = [] :=
  ⟨((C9_new_validation Nat 32).2 emptyTrie32 rfl).2.1,
   ((C9_new_validation Nat 32).2 emptyTrie32 rfl).2.2.1 _ (by decide),
   ((C9_new_validation Nat 32).2 emptyTrie32 rfl).2.2.2 _⟩

end LpmTrieGo
